import Mathlib

set_option maxHeartbeats 1000000

/-
Verification of the Ising-model Metropolis-Hastings kernel of the notebook
"01-Principles/03 Regex.ipynb" (the LatticeSampler component of the spec).

The N x N spin lattice of the notebook is a row-major NumPy int array; we
embed it as a flat row-major list of integers of length N * N.  The numba
jit-compiled helpers (calc_positional_e, delta_e) index that array without
per-axis bounds checks, so an in-buffer overflow of one axis silently reads
the row-major neighbour; a read outside the whole buffer has no defined
value and is modelled as none.  All energy values are embedded as rationals
(the float values arising in the code are exact small integers).  The random
draws consumed by the sampler (the initial lattice, the per-step site indices
and the per-step uniform variates) are passed in as explicit streams, and the
exponential function used by the acceptance test is passed in as an explicit
function, so that the sampler itself is a pure, executable function.
-/

/-- Builds the list of values f 0, ..., f (n-1) of an Option-valued table,
failing as soon as one entry fails; this models a Python loop that appends
one computed value per iteration and propagates any raised error. -/
def tabulateM {α : Type} (f : ℕ → Option α) : ℕ → Option (List α)
  | 0 => some []
  | n + 1 => (tabulateM f n).bind fun l => (f n).map fun a => l ++ [a]

/-- Element access spins[a, b] of the N x N int array inside a numba-compiled
function (nopython mode, default boundscheck off): a negative index on an axis
is wrapped once by adding the axis length (Python semantics, kept by numba),
a non-negative index is not range-checked per axis, and the resulting
row-major flat offset is read as long as it stays inside the N * N buffer.
A read outside the buffer has no defined value and is modelled as none. -/
def numbaGet (N : ℕ) (sp : List ℤ) (a b : ℤ) : Option ℤ :=
  let a2 := if a < 0 then a + N else a
  let b2 := if b < 0 then b + N else b
  if 0 ≤ a2 * N + b2 ∧ a2 * N + b2 < (N : ℤ) * N then sp.get? (a2 * N + b2).toNat
  else none

/-- Element access spins[a, b] of the N x N int array inside the cython cell,
compiled with boundscheck(False) and wraparound(False): no wrapping of
negative indices and no per-axis range check, just the row-major flat offset,
read as long as it stays inside the N * N buffer (outside: none). -/
def cyGet (N : ℕ) (sp : List ℤ) (a b : ℤ) : Option ℤ :=
  if 0 ≤ a * N + b ∧ a * N + b < (N : ℤ) * N then sp.get? (a * N + b).toNat
  else none

/-- The spin_l value of calc_positional_e (identical in the numba and the
cython version): note that the final branch, taken at interior rows, reads
the column neighbour (i, j-1) instead of the row neighbour (i-1, j),
exactly as written in the source. -/
def spin_l_calc (g : ℤ → ℤ → Option ℤ) (N i j : ℕ) : Option ℤ :=
  if i = 0 then g ((N : ℤ) - 1) (j : ℤ)
  else if i = N - 1 then g ((i : ℤ) - 1) (j : ℤ)
  else g (i : ℤ) ((j : ℤ) - 1)

/-- The spin_r value of calc_positional_e; the final branch reads (i, j+1)
instead of (i+1, j), exactly as written in the source. -/
def spin_r_calc (g : ℤ → ℤ → Option ℤ) (N i j : ℕ) : Option ℤ :=
  if i = 0 then g ((i : ℤ) + 1) (j : ℤ)
  else if i = N - 1 then g 0 (j : ℤ)
  else g (i : ℤ) ((j : ℤ) + 1)

/-- The spin_l value of the python delta_e: here the interior branch reads
the row neighbour (i-1, j), as intended. -/
def spin_l_delta (g : ℤ → ℤ → Option ℤ) (N i j : ℕ) : Option ℤ :=
  if i = 0 then g ((N : ℤ) - 1) (j : ℤ)
  else if i = N - 1 then g ((i : ℤ) - 1) (j : ℤ)
  else g ((i : ℤ) - 1) (j : ℤ)

/-- The spin_r value of the python delta_e (interior branch reads (i+1, j)). -/
def spin_r_delta (g : ℤ → ℤ → Option ℤ) (N i j : ℕ) : Option ℤ :=
  if i = 0 then g ((i : ℤ) + 1) (j : ℤ)
  else if i = N - 1 then g 0 (j : ℤ)
  else g ((i : ℤ) + 1) (j : ℤ)

/-- The spin_u value, shared verbatim by calc_positional_e and delta_e in
both the numba and the cython version. -/
def spin_u (g : ℤ → ℤ → Option ℤ) (N i j : ℕ) : Option ℤ :=
  if j = 0 then g (i : ℤ) ((N : ℤ) - 1)
  else if j = N - 1 then g (i : ℤ) ((j : ℤ) - 1)
  else g (i : ℤ) ((j : ℤ) - 1)

/-- The spin_d value, shared verbatim by calc_positional_e and delta_e in
both the numba and the cython version. -/
def spin_d (g : ℤ → ℤ → Option ℤ) (N i j : ℕ) : Option ℤ :=
  if j = 0 then g (i : ℤ) ((j : ℤ) + 1)
  else if j = N - 1 then g (i : ℤ) 0
  else g (i : ℤ) ((j : ℤ) + 1)

/-- Every cell of the (flattened) lattice is exactly plus or minus one; the
invariant that np.random.choice([-1, 1]) establishes and every update step
must maintain. -/
def pmSpins (sp : List ℤ) : Prop := ∀ v ∈ sp, v = 1 ∨ v = -1

instance (sp : List ℤ) : Decidable (pmSpins sp) := List.decidableBAll _ sp

namespace Py

/-- Body of the double loop of the numba-jitted calc_positional_e: the value
stored into E[i, j], namely spin_l + spin_r + spin_u + spin_d for the branch
structure of the source (with its interior-row slip). -/
def calcEntry (N : ℕ) (sp : List ℤ) (i j : ℕ) : Option ℤ :=
  (spin_l_calc (numbaGet N sp) N i j).bind fun l =>
  (spin_r_calc (numbaGet N sp) N i j).bind fun r =>
  (spin_u (numbaGet N sp) N i j).bind fun u =>
  (spin_d (numbaGet N sp) N i j).map fun d => l + r + u + d

/-- The numba-jitted calc_positional_e(spins, J): loops over all cells of the
N x N array and fills the integer matrix E (np.zeros_like of an int array) of
per-site neighbour sums.  The parameter J is accepted but never used, exactly
as in the source. -/
def calc_positional_e (N : ℕ) (sp : List ℤ) (J : ℚ) : Option (List (List ℤ)) :=
  tabulateM (fun i => tabulateM (fun j => calcEntry N sp i j) N) N

/-- The numba-jitted python delta_e(spins, i, j, J):
2 * J * spins[i,j] * (spin_l + spin_r + spin_u + spin_d), with the correct
row neighbours in the interior branch. -/
def delta_e (N : ℕ) (sp : List ℤ) (i j : ℕ) (J : ℚ) : Option ℚ :=
  (spin_l_delta (numbaGet N sp) N i j).bind fun l =>
  (spin_r_delta (numbaGet N sp) N i j).bind fun r =>
  (spin_u (numbaGet N sp) N i j).bind fun u =>
  (spin_d (numbaGet N sp) N i j).bind fun d =>
  (numbaGet N sp (i : ℤ) (j : ℤ)).map fun (s : ℤ) =>
    2 * J * ((s : ℤ) : ℚ) * (((l + r + u + d : ℤ) : ℚ))

/-- The python total_mag_e(spins, J) = -J * np.sum(calc_positional_e(spins, J)). -/
def total_mag_e (N : ℕ) (sp : List ℤ) (J : ℚ) : Option ℚ :=
  (calc_positional_e N sp J).map fun E => -J * (((E.map List.sum).sum : ℤ) : ℚ)

end Py

namespace Cy

/-- The cython calc_positional_e(spins, i, j, J): a per-site function (double
valued) with the same branch structure as the numba version, including the
interior-row slip, but compiled with wraparound(False). -/
def calc_positional_e (N : ℕ) (sp : List ℤ) (i j : ℕ) (J : ℚ) : Option ℚ :=
  (spin_l_calc (cyGet N sp) N i j).bind fun l =>
  (spin_r_calc (cyGet N sp) N i j).bind fun r =>
  (spin_u (cyGet N sp) N i j).bind fun u =>
  (spin_d (cyGet N sp) N i j).map fun d => (((l + r + u + d : ℤ) : ℚ))

/-- The cython delta_e(spins, i, j, J) =
2.0 * J * spins[i,j] * calc_positional_e(spins, i, j, J). -/
def delta_e (N : ℕ) (sp : List ℤ) (i j : ℕ) (J : ℚ) : Option ℚ :=
  (cyGet N sp (i : ℤ) (j : ℤ)).bind fun (s : ℤ) =>
  (calc_positional_e N sp i j J).map fun c => 2 * J * ((s : ℤ) : ℚ) * c

/-- The cython total_mag_e(spins, J): loops over all cells, accumulating the
per-site calc_positional_e values, and returns -J times the accumulated sum. -/
def total_mag_e (N : ℕ) (sp : List ℤ) (J : ℚ) : Option ℚ :=
  (tabulateM (fun i => tabulateM (fun j => calc_positional_e N sp i j J) N) N).map
    fun E => -J * (E.map List.sum).sum

end Cy

/-- One iteration of the Metropolis-Hastings update loop, shared verbatim by
the python and cython versions up to the choice of the delta-energy function:
draw a site (randx, randy) (the call np.random.randint(N) raises for N = 0),
compute dE, accept when dE < 0 or exp(-beta * dE) > u where u is the fresh
uniform draw for this step, and on acceptance negate the drawn cell in place
and add dE to the running energy.  The site and the uniform draw for the step
are supplied by the caller, and exp is supplied as the function e. -/
def mhStep (delta : ℕ → List ℤ → ℕ → ℕ → Option ℚ) (N : ℕ) (β : ℚ) (e : ℚ → ℚ)
    (site : ℕ × ℕ) (u : ℚ) (st : List ℤ × ℚ) : Option (List ℤ × ℚ) :=
  if N = 0 then none
  else
    (delta N st.1 site.1 site.2).bind fun dE =>
      if dE < 0 ∨ e (-β * dE) > u then
        (st.1.get? (site.1 * N + site.2)).bind fun v =>
          some (st.1.set (site.1 * N + site.2) (-v), st.2 + dE)
      else some (st.1, st.2)

/-- The update loop of metropolis_hastings, running k steps whose absolute
step numbers are s, s+1, ..., s+k-1 (the run proper starts at step 1), and
collecting the energy value recorded at each step. -/
def mhRunAux (delta : ℕ → List ℤ → ℕ → ℕ → Option ℚ) (N : ℕ) (β : ℚ) (e : ℚ → ℚ)
    (sites : ℕ → ℕ × ℕ) (us : ℕ → ℚ) : ℕ → ℕ → List ℤ × ℚ → Option (List ℤ × List ℚ)
  | _, 0, st => some (st.1, [])
  | s, k + 1, st =>
    match mhStep delta N β e (sites s) (us s) st with
    | none => none
    | some st' =>
      match mhRunAux delta N β e sites us (s + 1) k st' with
      | none => none
      | some (spF, ser) => some (spF, st'.2 :: ser)

/-- Iterating the update loop m times starting at absolute step number s,
returning only the final state; used to name the intermediate lattice and
energy states of a run. -/
def iterFrom (delta : ℕ → List ℤ → ℕ → ℕ → Option ℚ) (N : ℕ) (β : ℚ) (e : ℚ → ℚ)
    (sites : ℕ → ℕ × ℕ) (us : ℕ → ℚ) : ℕ → ℕ → List ℤ × ℚ → Option (List ℤ × ℚ)
  | _, 0, st => some st
  | s, m + 1, st =>
    match mhStep delta N β e (sites s) (us s) st with
    | none => none
    | some st' => iterFrom delta N β e sites us (s + 1) m st'

/-- The python metropolis_hastings(N, n_steps, beta).  The initial lattice
(np.random.choice of -1/+1 in shape (N, N), raising for N < 0) is supplied by
the caller as the flat list spins0; np.ones(n_steps) raises for n_steps < 0
and the assignment E_series[0] raises for n_steps = 0; then E_series[0] is set
to total_mag_e(spins, 1) and steps 1 .. n_steps-1 run the update loop.  The
streams sites and us supply the np.random.randint site pair and the
np.random.rand variate of each step, and e supplies np.exp. -/
def metropolis_hastings (N n_steps : ℤ) (β : ℚ) (e : ℚ → ℚ) (spins0 : List ℤ)
    (sites : ℕ → ℕ × ℕ) (us : ℕ → ℚ) : Option (List ℤ × List ℚ) :=
  if N < 0 then none
  else if n_steps < 0 then none
  else if n_steps = 0 then none
  else
    (Py.total_mag_e N.toNat spins0 1).bind fun E0 =>
      (mhRunAux (fun n sp i j => Py.delta_e n sp i j 1) N.toNat β e sites us
          1 (n_steps.toNat - 1) (spins0, E0)).map fun p => (p.1, E0 :: p.2)

/-- The cython metropolis_hastings2(N, n_steps, beta): identical loop, with
the cython total_mag_e for E_series[0] and the cython delta_e (J = 1.0) for
the per-step energy change; site and uniform draws come from drand48. -/
def metropolis_hastings2 (N n_steps : ℤ) (β : ℚ) (e : ℚ → ℚ) (spins0 : List ℤ)
    (sites : ℕ → ℕ × ℕ) (us : ℕ → ℚ) : Option (List ℤ × List ℚ) :=
  if N < 0 then none
  else if n_steps < 0 then none
  else if n_steps = 0 then none
  else
    (Cy.total_mag_e N.toNat spins0 1).bind fun E0 =>
      (mhRunAux (fun n sp i j => Cy.delta_e n sp i j 1) N.toNat β e sites us
          1 (n_steps.toNat - 1) (spins0, E0)).map fun p => (p.1, E0 :: p.2)

/-- The state (lattice, running energy) of a python metropolis_hastings run
after its first s update steps (s = 0 is the freshly initialised state, whose
energy is total_mag_e of the initial lattice). -/
def mhStateAt (N : ℕ) (β : ℚ) (e : ℚ → ℚ) (spins0 : List ℤ) (sites : ℕ → ℕ × ℕ)
    (us : ℕ → ℚ) (s : ℕ) : Option (List ℤ × ℚ) :=
  (Py.total_mag_e N spins0 1).bind fun E0 =>
    iterFrom (fun n sp i j => Py.delta_e n sp i j 1) N β e sites us 1 s (spins0, E0)

/-- average_magnetization(spins, N) = (1 / N**2) * np.sum(spins). -/
def average_magnetization (sp : List ℤ) (N : ℕ) : ℚ :=
  (1 / (N : ℚ) ^ 2) * ((sp.sum : ℤ) : ℚ)

/-- Modelled from the spec: the periodic four-neighbour sum
neighborSum(lattice, i, j), the sum of the lattice values immediately above,
below, left and right of (i, j) with periodic wraparound (index N maps to 0
and index -1 to N-1 on both axes).  This is the quantity the spec says
calc_positional_e computes; the code under test is compared against it. -/
def specNeighborSum (N : ℕ) (sp : List ℤ) (i j : ℕ) : ℤ :=
  sp.getD (((((i : ℤ) - 1) % N) * N + j).toNat) 0 +
  sp.getD (((((i : ℤ) + 1) % N) * N + j).toNat) 0 +
  sp.getD (((i : ℤ) * N + (((j : ℤ) - 1) % N)).toNat) 0 +
  sp.getD (((i : ℤ) * N + (((j : ℤ) + 1) % N)).toNat) 0

/-- Modelled from the spec: the canonical sum-over-unique-bonds interaction
energy -J * sum over unordered nearest-neighbour pairs of S_a * S_b, with
each bond enumerated once through its right/down representative
(i, j) - (i, (j+1) mod N) and (i, j) - ((i+1) mod N, j). -/
def canonicalBondEnergy (N : ℕ) (sp : List ℤ) (J : ℚ) : ℚ :=
  -J * (((∑ i in Finset.range N, ∑ j in Finset.range N,
    sp.getD (i * N + j) 0 *
      (sp.getD (i * N + (j + 1) % N) 0 + sp.getD (((i + 1) % N) * N + j) 0) : ℤ) : ℚ))

theorem tabulateM_zero {α : Type} (f : ℕ → Option α) : tabulateM f 0 = some [] := rfl

theorem tabulateM_succ {α : Type} (f : ℕ → Option α) (n : ℕ) :
    tabulateM f (n + 1) = (tabulateM f n).bind fun l => (f n).map fun a => l ++ [a] := rfl

/-- Shape and contents of a successfully tabulated list: it has one entry per
index, and entry k is the value of f k. -/
theorem tabulateM_spec {α : Type} (f : ℕ → Option α) :
    ∀ (n : ℕ) (l : List α), tabulateM f n = some l →
      l.length = n ∧ ∀ k, k < n → l.get? k = f k := by
  intro n
  induction n with
  | zero => intro l h; cases h; exact ⟨rfl, fun k hk => absurd hk (Nat.not_lt_zero k)⟩
  | succ n ih =>
    intro l h
    rw [tabulateM_succ] at h
    cases h1 : tabulateM f n with
    | none => rw [h1] at h; cases h
    | some l0 =>
      rw [h1] at h
      cases h2 : f n with
      | none => simp [h2] at h
      | some a =>
        simp only [h2, Option.bind_some, Option.map_some'] at h
        cases h
        obtain ⟨hlen, hget⟩ := ih l0 h1
        constructor
        · simp [hlen]
        · intro k hk
          rcases Nat.lt_succ_iff_lt_or_eq.mp hk with hk' | hk'
          · rw [List.get?_append (by omega), hget k hk']
          · rw [hk', ← hlen, List.get?_concat_length, hlen, h2]

/-- A tabulation fails exactly when no list can be produced; congruence of
tabulations under a pointwise value map. -/
theorem tabulateM_congr {α β : Type} (f : ℕ → Option α) (g : ℕ → Option β) (h : α → β) :
    ∀ n : ℕ, (∀ k, k < n → (f k).map h = g k) →
      (tabulateM f n).map (List.map h) = tabulateM g n := by
  intro n
  induction n with
  | zero => intro _; rfl
  | succ n ih =>
    intro hfg
    rw [tabulateM_succ, tabulateM_succ, ← ih (fun k hk => hfg k (by omega)),
      ← hfg n (by omega)]
    cases tabulateM f n with
    | none => rfl
    | some l0 => cases f n with
      | none => rfl
      | some a => simp

/-- In-range per-axis access inside a numba-compiled function is ordinary
row-major element access. -/
theorem numbaGet_eq_get? (N : ℕ) (sp : List ℤ) (a b : ℤ) (ha0 : 0 ≤ a)
    (ha : a < (N : ℤ)) (hb0 : 0 ≤ b) (hb : b < (N : ℤ)) :
    numbaGet N sp a b = sp.get? (a * N + b).toNat := by
  have h1 : ¬ a < 0 := by omega
  have h2 : ¬ b < 0 := by omega
  have h3 : 0 ≤ a * (N : ℤ) + b := by positivity
  have h4 : a * (N : ℤ) + b < (N : ℤ) * N := by nlinarith
  simp only [numbaGet, if_neg h1, if_neg h2, if_pos (⟨h3, h4⟩ : _ ∧ _)]

/-- In-range per-axis access on a full N x N buffer yields a value, and that
value is an element of the lattice. -/
theorem numbaGet_pm (N : ℕ) (sp : List ℤ) (a b : ℤ) (hlen : sp.length = N * N)
    (hc : ∀ v ∈ sp, v = 1 ∨ v = -1) (ha0 : 0 ≤ a) (ha : a < (N : ℤ))
    (hb0 : 0 ≤ b) (hb : b < (N : ℤ)) :
    ∃ v, numbaGet N sp a b = some v ∧ (v = 1 ∨ v = -1) := by
  rw [numbaGet_eq_get? N sp a b ha0 ha hb0 hb]
  have h4 : a * (N : ℤ) + b < (N : ℤ) * N := by nlinarith
  have hN : N * N ≠ 0 := by
    have h5 : (0 : ℤ) < N := lt_of_le_of_lt ha0 ha
    have h6 : 0 < N := by exact_mod_cast h5
    positivity
  have hk : (a * (N : ℤ) + b).toNat < sp.length := by
    rw [hlen, Int.toNat_lt' hN]
    push_cast
    exact h4
  rw [List.get?_eq_get hk]
  exact ⟨_, rfl, hc _ (List.get_mem _ _ hk)⟩

/-- The sum of a list is the sum of its positional entries. -/
theorem list_sum_getD {M : Type} [AddCommMonoid M] (l : List M) :
    l.sum = ∑ k in Finset.range l.length, l.getD k 0 := by
  induction l with
  | nil => simp
  | cons a t ih =>
    simp only [List.sum_cons, List.length_cons, Finset.sum_range_succ',
      List.getD_cons_succ, List.getD_cons_zero, ← ih]
    exact (add_comm _ _)

/-- Bound used for the delta-energy range: 2 * J * s * (l+r+u+d) with J = 1,
a sign s and four summands that are each plus or minus one. -/
theorem pm_sum_bound (s l r u d : ℚ) (hs : s = 1 ∨ s = -1) (hl : l = 1 ∨ l = -1)
    (hr : r = 1 ∨ r = -1) (hu : u = 1 ∨ u = -1) (hd : d = 1 ∨ d = -1) :
    -8 ≤ 2 * 1 * s * (l + r + u + d) ∧ 2 * 1 * s * (l + r + u + d) ≤ 8 := by
  have hl' : -1 ≤ l ∧ l ≤ 1 := by rcases hl with h | h <;> subst h <;> norm_num
  have hr' : -1 ≤ r ∧ r ≤ 1 := by rcases hr with h | h <;> subst h <;> norm_num
  have hu' : -1 ≤ u ∧ u ≤ 1 := by rcases hu with h | h <;> subst h <;> norm_num
  have hd' : -1 ≤ d ∧ d ≤ 1 := by rcases hd with h | h <;> subst h <;> norm_num
  rcases hs with h | h <;> subst h <;> constructor <;> nlinarith [hl'.1, hl'.2,
    hr'.1, hr'.2, hu'.1, hu'.2, hd'.1, hd'.2]

theorem iterFrom_zero (delta : ℕ → List ℤ → ℕ → ℕ → Option ℚ) (N : ℕ) (β : ℚ)
    (e : ℚ → ℚ) (sites : ℕ → ℕ × ℕ) (us : ℕ → ℚ) (s : ℕ) (st : List ℤ × ℚ) :
    iterFrom delta N β e sites us s 0 st = some st := rfl

theorem iterFrom_succ (delta : ℕ → List ℤ → ℕ → ℕ → Option ℚ) (N : ℕ) (β : ℚ)
    (e : ℚ → ℚ) (sites : ℕ → ℕ × ℕ) (us : ℕ → ℚ) (s m : ℕ) (st : List ℤ × ℚ) :
    iterFrom delta N β e sites us s (m + 1) st =
      match mhStep delta N β e (sites s) (us s) st with
      | none => none
      | some st' => iterFrom delta N β e sites us (s + 1) m st' := rfl

theorem iterFrom_succ_some (delta : ℕ → List ℤ → ℕ → ℕ → Option ℚ) (N : ℕ) (β : ℚ)
    (e : ℚ → ℚ) (sites : ℕ → ℕ × ℕ) (us : ℕ → ℚ) (s m : ℕ) (st st' : List ℤ × ℚ)
    (h : mhStep delta N β e (sites s) (us s) st = some st') :
    iterFrom delta N β e sites us s (m + 1) st =
      iterFrom delta N β e sites us (s + 1) m st' := by
  rw [iterFrom_succ, h]

/-- Peeling the last step off an iterated run. -/
theorem iterFrom_succ_last (delta : ℕ → List ℤ → ℕ → ℕ → Option ℚ) (N : ℕ) (β : ℚ)
    (e : ℚ → ℚ) (sites : ℕ → ℕ × ℕ) (us : ℕ → ℚ) :
    ∀ (m s : ℕ) (st : List ℤ × ℚ),
      iterFrom delta N β e sites us s (m + 1) st =
        (iterFrom delta N β e sites us s m st).bind
          (mhStep delta N β e (sites (s + m)) (us (s + m))) := by
  intro m
  induction m with
  | zero =>
    intro s st
    simp only [Nat.add_zero, iterFrom_succ, iterFrom_zero, Option.some_bind]
    cases h : mhStep delta N β e (sites s) (us s) st with
    | none => rfl
    | some st' => rfl
  | succ m ih =>
    intro s st
    rw [iterFrom_succ, iterFrom_succ]
    cases mhStep delta N β e (sites s) (us s) st with
    | none => simp
    | some st' =>
      simp only [Option.some_bind]
      rw [ih (s + 1) st']
      have : s + 1 + m = s + (m + 1) := by omega
      rw [this]

/-- A successful iterated run was successful at every intermediate length. -/
theorem iterFrom_some_of_le (delta : ℕ → List ℤ → ℕ → ℕ → Option ℚ) (N : ℕ) (β : ℚ)
    (e : ℚ → ℚ) (sites : ℕ → ℕ × ℕ) (us : ℕ → ℚ) :
    ∀ (m s : ℕ) (st st2 : List ℤ × ℚ),
      iterFrom delta N β e sites us s m st = some st2 →
      ∀ t, t ≤ m → ∃ st1, iterFrom delta N β e sites us s t st = some st1 := by
  intro m
  induction m with
  | zero =>
    intro s st st2 h t ht
    have : t = 0 := by omega
    exact ⟨st, by rw [this, iterFrom_zero]⟩
  | succ m ih =>
    intro s st st2 h t ht
    rw [iterFrom_succ_last] at h
    cases h1 : iterFrom delta N β e sites us s m st with
    | none => rw [h1] at h; cases h
    | some st1 =>
      rcases Nat.lt_succ_iff_lt_or_eq.mp (Nat.lt_succ_of_le ht) with ht' | ht'
      · exact ih s st st1 h1 t (by omega)
      · exact ⟨st2, by rw [ht', iterFrom_succ_last]; exact h⟩

theorem mhRunAux_zero (delta : ℕ → List ℤ → ℕ → ℕ → Option ℚ) (N : ℕ) (β : ℚ)
    (e : ℚ → ℚ) (sites : ℕ → ℕ × ℕ) (us : ℕ → ℚ) (s : ℕ) (st : List ℤ × ℚ) :
    mhRunAux delta N β e sites us s 0 st = some (st.1, []) := rfl

theorem mhRunAux_succ (delta : ℕ → List ℤ → ℕ → ℕ → Option ℚ) (N : ℕ) (β : ℚ)
    (e : ℚ → ℚ) (sites : ℕ → ℕ × ℕ) (us : ℕ → ℚ) (s k : ℕ) (st : List ℤ × ℚ) :
    mhRunAux delta N β e sites us s (k + 1) st =
      match mhStep delta N β e (sites s) (us s) st with
      | none => none
      | some st' =>
        match mhRunAux delta N β e sites us (s + 1) k st' with
        | none => none
        | some (spF, ser) => some (spF, st'.2 :: ser) := rfl

theorem mhRunAux_succ_some (delta : ℕ → List ℤ → ℕ → ℕ → Option ℚ) (N : ℕ) (β : ℚ)
    (e : ℚ → ℚ) (sites : ℕ → ℕ × ℕ) (us : ℕ → ℚ) (s k : ℕ) (st st' : List ℤ × ℚ)
    (h : mhStep delta N β e (sites s) (us s) st = some st') :
    mhRunAux delta N β e sites us s (k + 1) st =
      match mhRunAux delta N β e sites us (s + 1) k st' with
      | none => none
      | some (spF, ser) => some (spF, st'.2 :: ser) := by
  rw [mhRunAux_succ, h]

/-- Shape of a successful update loop: the collected series has one entry
per step, the final lattice is the lattice of the final iterated state, and
the t-th collected entry is the running energy after step t+1. -/
theorem mhRunAux_spec (delta : ℕ → List ℤ → ℕ → ℕ → Option ℚ) (N : ℕ) (β : ℚ)
    (e : ℚ → ℚ) (sites : ℕ → ℕ × ℕ) (us : ℕ → ℚ) :
    ∀ (k s : ℕ) (st : List ℤ × ℚ) (spF : List ℤ) (ser : List ℚ),
      mhRunAux delta N β e sites us s k st = some (spF, ser) →
      ser.length = k ∧
      (∃ Ek, iterFrom delta N β e sites us s k st = some (spF, Ek)) ∧
      ∀ t, t < k → ser.get? t =
        (iterFrom delta N β e sites us s (t + 1) st).map Prod.snd := by
  intro k
  induction k with
  | zero =>
    intro s st spF ser h
    cases h
    exact ⟨rfl, ⟨st.2, rfl⟩, fun t ht => absurd ht (Nat.not_lt_zero t)⟩
  | succ k ih =>
    intro s st spF ser h
    cases h1 : mhStep delta N β e (sites s) (us s) st with
    | none => rw [mhRunAux_succ, h1] at h; cases h
    | some st' =>
      rw [mhRunAux_succ_some delta N β e sites us s k st st' h1] at h
      cases h2 : mhRunAux delta N β e sites us (s + 1) k st' with
      | none => rw [h2] at h; cases h
      | some p =>
        obtain ⟨spF', ser'⟩ := p
        rw [h2] at h
        cases h
        obtain ⟨hl, ⟨Ek, hiter⟩, hser⟩ := ih (s + 1) st' spF ser' h2
        refine ⟨by simp [hl], ⟨Ek, ?_⟩, ?_⟩
        · rw [iterFrom_succ_some delta N β e sites us s k st st' h1]; exact hiter
        · intro t ht
          cases t with
          | zero =>
            rw [iterFrom_succ_some delta N β e sites us s 0 st st' h1, iterFrom_zero]
            rfl
          | succ t =>
            rw [List.get?_cons_succ, hser t (by omega),
              iterFrom_succ_some delta N β e sites us s (t + 1) st st' h1]

/-- Unpacking a successful python metropolis_hastings call into its pieces:
the guards passed, the initial energy came from total_mag_e, the update loop
ran for n_steps - 1 steps starting at step 1, and the returned series is the
initial energy followed by the per-step energies. -/
theorem metropolis_hastings_some (N n_steps : ℤ) (β : ℚ) (e : ℚ → ℚ)
    (spins0 : List ℤ) (sites : ℕ → ℕ × ℕ) (us : ℕ → ℚ) (spF : List ℤ) (serF : List ℚ)
    (h : metropolis_hastings N n_steps β e spins0 sites us = some (spF, serF)) :
    0 ≤ N ∧ 1 ≤ n_steps ∧ ∃ E0 serT,
      Py.total_mag_e N.toNat spins0 1 = some E0 ∧
      mhRunAux (fun n sp i j => Py.delta_e n sp i j 1) N.toNat β e sites us 1
        (n_steps.toNat - 1) (spins0, E0) = some (spF, serT) ∧
      serF = E0 :: serT := by
  rw [metropolis_hastings] at h
  by_cases h1 : N < 0
  · rw [if_pos h1] at h; cases h
  rw [if_neg h1] at h
  by_cases h2 : n_steps < 0
  · rw [if_pos h2] at h; cases h
  rw [if_neg h2] at h
  by_cases h3 : n_steps = 0
  · rw [if_pos h3] at h; cases h
  rw [if_neg h3] at h
  refine ⟨by omega, by omega, ?_⟩
  cases h4 : Py.total_mag_e N.toNat spins0 1 with
  | none => rw [h4] at h; cases h
  | some E0 =>
    rw [h4, Option.some_bind] at h
    cases h5 : mhRunAux (fun n sp i j => Py.delta_e n sp i j 1) N.toNat β e sites us 1
        (n_steps.toNat - 1) (spins0, E0) with
    | none => rw [h5] at h; cases h
    | some p =>
      obtain ⟨spF', serT⟩ := p
      rw [h5, Option.map_some'] at h
      rw [Option.some.injEq, Prod.mk.injEq] at h
      obtain ⟨hA, hB⟩ := h
      dsimp only at hA hB
      exact ⟨E0, serT, rfl, by rw [← hA]; exact h5, hB.symm⟩

/-- One update step preserves the lattice shape and the plus-or-minus-one
cell invariant: a rejected step leaves the lattice alone, an accepted step
negates one cell. -/
theorem mhStep_preserves (delta : ℕ → List ℤ → ℕ → ℕ → Option ℚ) (N : ℕ) (β : ℚ)
    (e : ℚ → ℚ) (site : ℕ × ℕ) (u : ℚ) (st st' : List ℤ × ℚ)
    (h : mhStep delta N β e site u st = some st')
    (hlen : st.1.length = N * N) (hc : ∀ v ∈ st.1, v = 1 ∨ v = -1) :
    st'.1.length = N * N ∧ ∀ v ∈ st'.1, v = 1 ∨ v = -1 := by
  rw [mhStep] at h
  by_cases h1 : N = 0
  · rw [if_pos h1] at h; cases h
  rw [if_neg h1] at h
  cases h2 : delta N st.1 site.1 site.2 with
  | none => rw [h2] at h; cases h
  | some dE =>
    rw [h2, Option.some_bind] at h
    by_cases h3 : dE < 0 ∨ e (-β * dE) > u
    · rw [if_pos h3] at h
      cases h4 : st.1.get? (site.1 * N + site.2) with
      | none => rw [h4] at h; cases h
      | some v =>
        rw [h4, Option.some_bind] at h
        cases h
        constructor
        · simp [List.length_set, hlen]
        · intro w hw
          rcases List.mem_or_eq_of_mem_set hw with hw' | hw'
          · exact hc w hw'
          · have hv := hc v (List.get?_mem h4)
            rcases hv with hv | hv <;> rw [hw', hv] <;> simp
    · rw [if_neg h3] at h
      cases h
      exact ⟨hlen, hc⟩

/-- The step invariant carries through any number of iterated steps. -/
theorem iterFrom_preserves (delta : ℕ → List ℤ → ℕ → ℕ → Option ℚ) (N : ℕ) (β : ℚ)
    (e : ℚ → ℚ) (sites : ℕ → ℕ × ℕ) (us : ℕ → ℚ) :
    ∀ (m s : ℕ) (st st2 : List ℤ × ℚ),
      iterFrom delta N β e sites us s m st = some st2 →
      st.1.length = N * N → (∀ v ∈ st.1, v = 1 ∨ v = -1) →
      st2.1.length = N * N ∧ ∀ v ∈ st2.1, v = 1 ∨ v = -1 := by
  intro m
  induction m with
  | zero =>
    intro s st st2 h hlen hc
    rw [iterFrom_zero] at h
    cases h
    exact ⟨hlen, hc⟩
  | succ m ih =>
    intro s st st2 h hlen hc
    rw [iterFrom_succ] at h
    cases h1 : mhStep delta N β e (sites s) (us s) st with
    | none => rw [h1] at h; cases h
    | some st' =>
      rw [h1] at h
      obtain ⟨hlen', hc'⟩ := mhStep_preserves delta N β e (sites s) (us s) st st' h1 hlen hc
      exact ih (s + 1) st' st2 h hlen' hc'

theorem tabulateM_one {α : Type} (f : ℕ → Option α) :
    tabulateM f 1 = (f 0).map fun a => [a] := by
  cases h : f 0 <;> simp [tabulateM_succ, tabulateM_zero, h]

theorem tabulateM_two {α : Type} (f : ℕ → Option α) :
    tabulateM f 2 = (f 0).bind fun a => (f 1).map fun b => [a, b] := by
  cases h0 : f 0 <;> cases h1 : f 1 <;>
    simp [show (2:ℕ) = 1 + 1 from rfl, tabulateM_succ, tabulateM_one, tabulateM_zero, h0, h1]

theorem tabulateM_three {α : Type} (f : ℕ → Option α) :
    tabulateM f 3 = (f 0).bind fun a => (f 1).bind fun b => (f 2).map fun c => [a, b, c] := by
  cases h0 : f 0 <;> cases h1 : f 1 <;> cases h2 : f 2 <;>
    simp [show (3:ℕ) = 2 + 1 from rfl, tabulateM_succ, tabulateM_two, tabulateM_zero,
      tabulateM_one, h0, h1, h2]

theorem mhRunAux_one (delta : ℕ → List ℤ → ℕ → ℕ → Option ℚ) (N : ℕ) (β : ℚ)
    (e : ℚ → ℚ) (sites : ℕ → ℕ × ℕ) (us : ℕ → ℚ) (s : ℕ) (st : List ℤ × ℚ) :
    mhRunAux delta N β e sites us s 1 st =
      (mhStep delta N β e (sites s) (us s) st).map fun st2 => (st2.1, [st2.2]) := by
  rw [show (1:ℕ) = 0 + 1 from rfl, mhRunAux_succ]
  cases h : mhStep delta N β e (sites s) (us s) st <;> simp [mhRunAux_zero, h]

/-- On a 1 x 1 lattice the python total_mag_e reads past the buffer (its
calc_positional_e accesses spins[i+1, j] = spins[1, 0]) and has no value. -/
theorem total_one_none_py (sp : List ℤ) : Py.total_mag_e 1 sp 1 = none := by
  cases h0 : sp[0]? <;>
    simp [Py.total_mag_e, Py.calc_positional_e, tabulateM_one, Py.calcEntry,
      spin_l_calc, spin_r_calc, spin_u, spin_d, numbaGet, h0]

/-- The cython total_mag_e fails on a 1 x 1 lattice for the same reason. -/
theorem total_one_none_cy (sp : List ℤ) : Cy.total_mag_e 1 sp 1 = none := by
  cases h0 : sp[0]? <;>
    simp [Cy.total_mag_e, Cy.calc_positional_e, tabulateM_one,
      spin_l_calc, spin_r_calc, spin_u, spin_d, cyGet, h0]

/-- On a 2 x 2 lattice every branch of calc_positional_e uses per-axis
in-range indices, so the numba and the cython version read the same cells and
the two total_mag_e energies agree. -/
theorem total_agree_two (sp : List ℤ) : Py.total_mag_e 2 sp 1 = Cy.total_mag_e 2 sp 1 := by
  simp only [Py.total_mag_e, Cy.total_mag_e, Py.calc_positional_e, tabulateM_two,
    Py.calcEntry, Cy.calc_positional_e, spin_l_calc, spin_r_calc, spin_u, spin_d]
  norm_num [numbaGet, cyGet, Int.toNat_ofNat]
  cases h0 : sp[0]? <;> cases h1 : sp[1]? <;> cases h2 : sp[2]? <;> cases h3 : sp[3]? <;>
    simp [h0, h1, h2, h3] <;> push_cast <;> ring

/-- On a 2 x 2 lattice the python delta_e and the cython delta_e agree at
every in-range site: the branches taken for i, j in {0, 1} = {0, N-1} read
identical cells (the differing interior branch is never reached). -/
theorem delta_agree_two (sp : List ℤ) (i j : ℕ) (hi : i < 2) (hj : j < 2) :
    Py.delta_e 2 sp i j 1 = Cy.delta_e 2 sp i j 1 := by
  interval_cases i <;> interval_cases j <;>
    simp only [Py.delta_e, Cy.delta_e, Cy.calc_positional_e, spin_l_delta, spin_r_delta,
      spin_l_calc, spin_r_calc, spin_u, spin_d] <;>
    norm_num [numbaGet, cyGet, Int.toNat_ofNat] <;>
    (cases h0 : sp[0]? <;> cases h1 : sp[1]? <;> cases h2 : sp[2]? <;> cases h3 : sp[3]? <;>
      simp [h0, h1, h2, h3, Function.comp])

/-- Two update loops that use delta-energy functions agreeing at every drawn
site behave identically. -/
theorem mhRunAux_congr (d1 d2 : ℕ → List ℤ → ℕ → ℕ → Option ℚ) (N : ℕ) (β : ℚ)
    (e : ℚ → ℚ) (sites : ℕ → ℕ × ℕ) (us : ℕ → ℚ)
    (hd : ∀ (sp : List ℤ) (s : ℕ),
      d1 N sp (sites s).1 (sites s).2 = d2 N sp (sites s).1 (sites s).2) :
    ∀ (k s : ℕ) (st : List ℤ × ℚ),
      mhRunAux d1 N β e sites us s k st = mhRunAux d2 N β e sites us s k st := by
  intro k
  induction k with
  | zero => intro s st; rw [mhRunAux_zero, mhRunAux_zero]
  | succ k ih =>
    intro s st
    have hstep : mhStep d1 N β e (sites s) (us s) st = mhStep d2 N β e (sites s) (us s) st := by
      rw [mhStep, mhStep, hd st.1 s]
    cases h : mhStep d2 N β e (sites s) (us s) st with
    | none => rw [mhRunAux_succ, mhRunAux_succ, hstep, h]
    | some st' =>
      rw [mhRunAux_succ_some d1 N β e sites us s k st st' (by rw [hstep]; exact h),
        mhRunAux_succ_some d2 N β e sites us s k st st' h, ih (s + 1) st']

theorem spin_l_delta_pm (N : ℕ) (sp : List ℤ) (i j : ℕ) (h2 : 2 ≤ N)
    (hlen : sp.length = N * N) (hc : pmSpins sp) (hi : i < N) (hj : j < N) :
    ∃ v, spin_l_delta (numbaGet N sp) N i j = some v ∧ (v = 1 ∨ v = -1) := by
  rw [spin_l_delta]
  split_ifs with h0 hN <;>
    exact numbaGet_pm N sp _ _ hlen hc (by omega) (by omega) (by omega) (by omega)

theorem spin_r_delta_pm (N : ℕ) (sp : List ℤ) (i j : ℕ) (h2 : 2 ≤ N)
    (hlen : sp.length = N * N) (hc : pmSpins sp) (hi : i < N) (hj : j < N) :
    ∃ v, spin_r_delta (numbaGet N sp) N i j = some v ∧ (v = 1 ∨ v = -1) := by
  rw [spin_r_delta]
  split_ifs with h0 hN <;>
    exact numbaGet_pm N sp _ _ hlen hc (by omega) (by omega) (by omega) (by omega)

theorem spin_u_pm (N : ℕ) (sp : List ℤ) (i j : ℕ) (h2 : 2 ≤ N)
    (hlen : sp.length = N * N) (hc : pmSpins sp) (hi : i < N) (hj : j < N) :
    ∃ v, spin_u (numbaGet N sp) N i j = some v ∧ (v = 1 ∨ v = -1) := by
  rw [spin_u]
  split_ifs with h0 hN <;>
    exact numbaGet_pm N sp _ _ hlen hc (by omega) (by omega) (by omega) (by omega)

theorem spin_d_pm (N : ℕ) (sp : List ℤ) (i j : ℕ) (h2 : 2 ≤ N)
    (hlen : sp.length = N * N) (hc : pmSpins sp) (hi : i < N) (hj : j < N) :
    ∃ v, spin_d (numbaGet N sp) N i j = some v ∧ (v = 1 ∨ v = -1) := by
  rw [spin_d]
  split_ifs with h0 hN <;>
    exact numbaGet_pm N sp _ _ hlen hc (by omega) (by omega) (by omega) (by omega)

/-- Claim C1 (code evidence): on the 3 x 3 all-plus-minus-one lattice
[[1,1,-1],[1,1,1],[1,-1,1]], the calc_positional_e matrix holds 4 at the
interior cell (1,1), because its interior-row branch adds the column
neighbours (1,0) and (1,2) twice each, while the spec's periodic
four-neighbour sum at (1,1) is 2.  calc_positional_e therefore does not
compute neighborSum. -/
theorem c1_calc_positional_e_interior_mismatch :
    (Py.calc_positional_e 3 [1, 1, -1, 1, 1, 1, 1, -1, 1] 1).map
      (fun E => (E.getD 1 []).getD 1 0) = some 4 ∧
    specNeighborSum 3 [1, 1, -1, 1, 1, 1, 1, -1, 1] 1 1 = 2 ∧ (4 : ℤ) ≠ 2 :=
  ⟨by decide, by decide, by decide⟩

/-- Claim C2 (code evidence): on the same 3 x 3 lattice, delta_e at the
interior site (1,1) with J = 1 is 4 (delta_e uses the correct row
neighbours), while 2 * J * lattice[1][1] * calc_positional_e(lattice, J)[1][1]
is 8, so the claimed identity between the two implemented functions fails. -/
theorem c2_delta_e_vs_calc_positional_mismatch :
    Py.delta_e 3 [1, 1, -1, 1, 1, 1, 1, -1, 1] 1 1 1 = some 4 ∧
    (Py.calc_positional_e 3 [1, 1, -1, 1, 1, 1, 1, -1, 1] 1).map
      (fun E => 2 * 1 * ((([1, 1, -1, 1, 1, 1, 1, -1, 1] : List ℤ).getD 4 0 : ℚ)) *
        (((E.getD 1 []).getD 1 0 : ℤ) : ℚ)) = some 8 ∧
    (4 : ℚ) ≠ 8 := by
  refine ⟨?_, ?_, by norm_num⟩
  · norm_num [Py.delta_e, spin_l_delta, spin_r_delta, spin_u, spin_d, numbaGet,
      show Int.toNat 0 = 0 from rfl, show Int.toNat 1 = 1 from rfl,
      show Int.toNat 2 = 2 from rfl, show Int.toNat 3 = 3 from rfl,
      show Int.toNat 4 = 4 from rfl, show Int.toNat 5 = 5 from rfl,
      show Int.toNat 6 = 6 from rfl, show Int.toNat 7 = 7 from rfl,
      show Int.toNat 8 = 8 from rfl]
  · norm_num [Py.calc_positional_e, tabulateM_three, Py.calcEntry, spin_l_calc,
      spin_r_calc, spin_u, spin_d, numbaGet,
      show Int.toNat 0 = 0 from rfl, show Int.toNat 1 = 1 from rfl,
      show Int.toNat 2 = 2 from rfl, show Int.toNat 3 = 3 from rfl,
      show Int.toNat 4 = 4 from rfl, show Int.toNat 5 = 5 from rfl,
      show Int.toNat 6 = 6 from rfl, show Int.toNat 7 = 7 from rfl,
      show Int.toNat 8 = 8 from rfl]

/-- Claim C8 (amended): for every N x N lattice with N at least 2, all cells
plus or minus one, and every in-range site (i, j), delta_e with J = 1 is
defined and its value lies in the closed interval [-8, 8]. -/
theorem c8_delta_e_bounded (N : ℕ) (sp : List ℤ) (i j : ℕ) (h2 : 2 ≤ N)
    (hlen : sp.length = N * N) (hc : pmSpins sp) (hi : i < N) (hj : j < N) :
    (Py.delta_e N sp i j 1).isSome = true ∧
    -8 ≤ (Py.delta_e N sp i j 1).getD 0 ∧ (Py.delta_e N sp i j 1).getD 0 ≤ 8 := by
  obtain ⟨l, hl, hlpm⟩ := spin_l_delta_pm N sp i j h2 hlen hc hi hj
  obtain ⟨r, hr, hrpm⟩ := spin_r_delta_pm N sp i j h2 hlen hc hi hj
  obtain ⟨u, hu, hupm⟩ := spin_u_pm N sp i j h2 hlen hc hi hj
  obtain ⟨dd, hdd, hddpm⟩ := spin_d_pm N sp i j h2 hlen hc hi hj
  obtain ⟨sv, hsv, hsvpm⟩ := numbaGet_pm N sp (i : ℤ) (j : ℤ) hlen hc
    (by omega) (by omega) (by omega) (by omega)
  rw [Py.delta_e, hl, hr, hu, hdd, hsv]
  simp only [Option.some_bind, Option.map_some']
  have hb := pm_sum_bound (sv : ℚ) (l : ℚ) (r : ℚ) (u : ℚ) (dd : ℚ)
    (by rcases hsvpm with h | h <;> simp [h]) (by rcases hlpm with h | h <;> simp [h])
    (by rcases hrpm with h | h <;> simp [h]) (by rcases hupm with h | h <;> simp [h])
    (by rcases hddpm with h | h <;> simp [h])
  refine ⟨rfl, ?_, ?_⟩
  · simp only [Option.getD_some]
    push_cast
    linarith [hb.1]
  · simp only [Option.getD_some]
    push_cast
    linarith [hb.2]

/-- Claim C8 (counterexample): on the 1 x 1 lattice [1] the call
delta_e(lattice, 0, 0, 1) reads spins[1, 0], one element past the buffer, and
has no value at all, so it does not lie in [-8, 8]. -/
theorem c8_delta_e_undefined_on_one_by_one :
    Py.delta_e 1 [1] 0 0 1 = none ∧
    ¬ ((Py.delta_e 1 [1] 0 0 1).isSome = true ∧
      -8 ≤ (Py.delta_e 1 [1] 0 0 1).getD 0 ∧ (Py.delta_e 1 [1] 0 0 1).getD 0 ≤ 8) :=
  ⟨by decide, by decide⟩

/-- Claim C8 (witness): the bound theorem applies to the all-up 2 x 2 lattice
at site (0, 0). -/
theorem c8_delta_e_bounded_w :
    (Py.delta_e 2 [1, 1, 1, 1] 0 0 1).isSome = true ∧
    -8 ≤ (Py.delta_e 2 [1, 1, 1, 1] 0 0 1).getD 0 ∧
      (Py.delta_e 2 [1, 1, 1, 1] 0 0 1).getD 0 ≤ 8 :=
  c8_delta_e_bounded 2 [1, 1, 1, 1] 0 0 (by decide) (by decide) (by decide)
    (by decide) (by decide)

/-- Claim C4 (amended): total_mag_e(spins, J) is, whenever calc_positional_e
is defined, exactly -J times the sum over all cells (i, j) of the
calc_positional_e matrix entry at (i, j).  (The further assertion of the
claim, that this value is double the canonical unique-bond energy, is false;
see the counterexample.) -/
theorem c4_total_mag_e_eq_neg_J_sum (N : ℕ) (sp : List ℤ) (J : ℚ) (E : List (List ℤ))
    (h : Py.calc_positional_e N sp J = some E) :
    Py.total_mag_e N sp J =
      some (-J * (((∑ i in Finset.range N, ∑ j in Finset.range N,
        (E.getD i []).getD j 0) : ℤ) : ℚ)) := by
  rw [Py.total_mag_e, h, Option.map_some', Option.some.injEq]
  rw [Py.calc_positional_e] at h
  have houter := tabulateM_spec _ N E h
  have hsum : (E.map List.sum).sum =
      ∑ i in Finset.range N, ∑ j in Finset.range N, (E.getD i []).getD j 0 := by
    rw [list_sum_getD (E.map List.sum), List.length_map, houter.1]
    refine Finset.sum_congr rfl ?_
    intro k hk
    have hkN : k < N := Finset.mem_range.mp hk
    have hkE : k < E.length := by rw [houter.1]; exact hkN
    have hget : E.get? k = some (E.get ⟨k, hkE⟩) := List.get?_eq_get hkE
    have hrow : tabulateM (fun j => Py.calcEntry N sp k j) N = some (E.get ⟨k, hkE⟩) := by
      rw [← houter.2 k hkN, hget]
    obtain ⟨hrlen, _⟩ := tabulateM_spec _ N _ hrow
    have h1 : (E.map List.sum).getD k 0 = (E.get ⟨k, hkE⟩).sum := by
      rw [List.getD_eq_get?, List.get?_map, hget]; rfl
    have h2 : E.getD k [] = E.get ⟨k, hkE⟩ := by
      rw [List.getD_eq_get?, hget]; rfl
    rw [h1, h2, list_sum_getD (E.get ⟨k, hkE⟩), hrlen]
  rw [hsum]

/-- Claim C4 (counterexample): on the 2 x 2 lattice [[1,1],[1,-1]] with J = 1
the implemented total_mag_e is -8, while double the canonical
sum-over-unique-bonds energy is 0: total_mag_e omits the centre-spin factor,
so it is not double (nor any fixed multiple of) the canonical bond energy. -/
theorem c4_total_not_double_canonical :
    Py.total_mag_e 2 [1, 1, 1, -1] 1 = some (-8) ∧
    2 * canonicalBondEnergy 2 [1, 1, 1, -1] 1 = 0 ∧ ((-8 : ℚ) ≠ 0) := by
  refine ⟨?_, ?_, by norm_num⟩
  · norm_num [Py.total_mag_e, Py.calc_positional_e, tabulateM_two, Py.calcEntry,
      spin_l_calc, spin_r_calc, spin_u, spin_d, numbaGet,
      show Int.toNat 0 = 0 from rfl, show Int.toNat 1 = 1 from rfl,
      show Int.toNat 2 = 2 from rfl, show Int.toNat 3 = 3 from rfl]
  · norm_num [canonicalBondEnergy, Finset.sum_range_succ, Finset.sum_range_zero]

/-- Claim C4 (witness): the amended total_mag_e characterisation applied to
the lattice [[1,1],[1,-1]], whose calc_positional_e matrix is [[4,0],[0,4]]. -/
theorem c4_total_mag_e_eq_neg_J_sum_w :
    Py.total_mag_e 2 [1, 1, 1, -1] 1 =
      some (-1 * (((∑ i in Finset.range 2, ∑ j in Finset.range 2,
        (([[4, 0], [0, 4]] : List (List ℤ)).getD i []).getD j 0) : ℤ) : ℚ)) :=
  c4_total_mag_e_eq_neg_J_sum 2 [1, 1, 1, -1] 1 [[4, 0], [0, 4]] (by decide)

/-- Claim C9: average_magnetization(spins, N) is (1/N^2) times the sum of all
lattice values (definitionally, and the embedding is a pure function, so the
lattice is not modified), and on the all +1 (respectively all -1) N x N
lattice it is exactly 1 (respectively -1). -/
theorem c9_average_magnetization_formula (N : ℕ) (sp : List ℤ) (hN : 0 < N) :
    average_magnetization sp N = (1 / (N : ℚ) ^ 2) * ((sp.sum : ℤ) : ℚ) ∧
    average_magnetization (List.replicate (N * N) 1) N = 1 ∧
    average_magnetization (List.replicate (N * N) (-1)) N = -1 := by
  have hN' : (N : ℚ) ≠ 0 := Nat.cast_ne_zero.mpr (by omega)
  refine ⟨rfl, ?_, ?_⟩
  · rw [average_magnetization, List.sum_replicate]
    push_cast
    field_simp
    ring
  · rw [average_magnetization, List.sum_replicate]
    push_cast
    field_simp
    ring

/-- Claim C9 (witness): the magnetization formula applied to a concrete
2 x 2 lattice. -/
theorem c9_average_magnetization_w :
    average_magnetization [1, 1, 1, -1] 2 =
      (1 / (2 : ℚ) ^ 2) * ((([1, 1, 1, -1] : List ℤ).sum : ℤ) : ℚ) ∧
    average_magnetization (List.replicate (2 * 2) 1) 2 = 1 ∧
    average_magnetization (List.replicate (2 * 2) (-1)) 2 = -1 :=
  c9_average_magnetization_formula 2 [1, 1, 1, -1] (by decide)

/-- Claim C7 (amended): metropolis_hastings performs no argument validation
and raises no InvalidArgument error: with N = 0 and n_steps = 1 it completes
normally, returning the empty lattice and the energy series [0]; calls with
negative n_steps, zero n_steps, or negative N fail only at the first
operation that consumes the invalid value (np.ones, the E_series[0]
assignment, np.random.choice), after the preceding work has run. -/
theorem c7_no_validation (N n_steps : ℤ) (β : ℚ) (e : ℚ → ℚ) (spins0 : List ℤ)
    (sites : ℕ → ℕ × ℕ) (us : ℕ → ℚ) :
    metropolis_hastings 0 1 β e [] sites us = some ([], [0]) ∧
    (n_steps < 0 → metropolis_hastings N n_steps β e spins0 sites us = none) ∧
    (n_steps = 0 → metropolis_hastings N n_steps β e spins0 sites us = none) ∧
    (N < 0 → metropolis_hastings N n_steps β e spins0 sites us = none) := by
  refine ⟨?_, ?_, ?_, ?_⟩
  · norm_num [metropolis_hastings, Py.total_mag_e, Py.calc_positional_e,
      tabulateM_zero, mhRunAux_zero]
  · intro h
    rw [metropolis_hastings]
    by_cases hN : N < 0
    · rw [if_pos hN]
    · rw [if_neg hN, if_pos h]
  · intro h
    rw [metropolis_hastings]
    by_cases hN : N < 0
    · rw [if_pos hN]
    · rw [if_neg hN, if_neg (by omega : ¬ n_steps < 0), if_pos h]
  · intro h
    rw [metropolis_hastings, if_pos h]

/-- Claim C7 (counterexample): the call with N = 0 and n_steps = 1 does not
fail at all, let alone with InvalidArgument before any simulation work: it
returns the empty lattice and the series [0]. -/
theorem c7_zero_N_call_succeeds :
    metropolis_hastings 0 1 0 (fun _ => 1) [] (fun _ => (0, 0)) (fun _ => 0) =
      some ([], [0]) := by
  norm_num [metropolis_hastings, Py.total_mag_e, Py.calc_positional_e,
    tabulateM_zero, mhRunAux_zero]

/-- Claim C7 (witness): a call with negative N fails (with numpy's generic
error, modelled as none), as the amended claim states. -/
theorem c7_no_validation_w :
    metropolis_hastings (-1) 5 0 (fun _ => 1) [1] (fun _ => (0, 0)) (fun _ => 0) = none :=
  (c7_no_validation (-1) 5 0 (fun _ => 1) [1] (fun _ => (0, 0)) (fun _ => 0)).2.2.2
    (by norm_num)

/-- Claim C10 (amended): for lattices of side 1 <= N <= 2, the python
metropolis_hastings and the cython metropolis_hastings2, run from the same
initial lattice with the same per-step site draws (in range, as randint and
drand48 guarantee) and the same uniform draws, return identical results (for
N = 1 both fail identically; for N = 2 the branches of the two delta-energy
functions coincide).  For N >= 3 they diverge at interior sites; see the
counterexample. -/
theorem c10_python_cython_agree_small (N n_steps : ℤ) (β : ℚ) (e : ℚ → ℚ)
    (spins0 : List ℤ) (sites : ℕ → ℕ × ℕ) (us : ℕ → ℚ) (h1 : 1 ≤ N) (h2 : N ≤ 2)
    (hsites : ∀ s, (sites s).1 < N.toNat ∧ (sites s).2 < N.toNat) :
    metropolis_hastings N n_steps β e spins0 sites us =
      metropolis_hastings2 N n_steps β e spins0 sites us := by
  have hN : N = 1 ∨ N = 2 := by omega
  rw [metropolis_hastings, metropolis_hastings2]
  rcases hN with hN | hN <;> subst hN
  · rw [show (1:ℤ).toNat = 1 from rfl, total_one_none_py, total_one_none_cy]
    simp only [Option.none_bind]
  · rw [show (2:ℤ).toNat = 2 from rfl] at hsites ⊢
    rw [total_agree_two]
    have hd : ∀ (sp : List ℤ) (s : ℕ),
        Py.delta_e 2 sp (sites s).1 (sites s).2 1 = Cy.delta_e 2 sp (sites s).1 (sites s).2 1 :=
      fun sp s => delta_agree_two sp (sites s).1 (sites s).2 (hsites s).1 (hsites s).2
    cases hE : Cy.total_mag_e 2 spins0 1 with
    | none => simp only [Option.none_bind]
    | some E0 =>
      simp only [Option.some_bind]
      rw [mhRunAux_congr (fun n sp i j => Py.delta_e n sp i j 1)
        (fun n sp i j => Cy.delta_e n sp i j 1) 2 β e sites us hd (n_steps.toNat - 1) 1
        (spins0, E0)]

/-- Claim C10 (counterexample): from the identical initial 3 x 3 lattice
[[1,1,-1],[1,1,1],[1,-1,1]], the identical site draw (1,1) and the identical
uniform draw 1/2 at the single update step (beta = 0, so exp of the evaluated
argument is exactly 1), the python run returns the series [-24, -20] while
the cython run returns [-22, -14]: the energy series differ, refuting the
claimed equality of results. -/
theorem c10_python_cython_runs_differ :
    metropolis_hastings 3 2 0 (fun _ => 1) [1, 1, -1, 1, 1, 1, 1, -1, 1]
        (fun _ => (1, 1)) (fun _ => 1/2) =
      some ([1, 1, -1, 1, -1, 1, 1, -1, 1], [-24, -20]) ∧
    metropolis_hastings2 3 2 0 (fun _ => 1) [1, 1, -1, 1, 1, 1, 1, -1, 1]
        (fun _ => (1, 1)) (fun _ => 1/2) =
      some ([1, 1, -1, 1, -1, 1, 1, -1, 1], [-22, -14]) ∧
    some (([1, 1, -1, 1, -1, 1, 1, -1, 1] : List ℤ), ([-24, -20] : List ℚ)) ≠
      some (([1, 1, -1, 1, -1, 1, 1, -1, 1] : List ℤ), ([-22, -14] : List ℚ)) := by
  refine ⟨?_, ?_, by norm_num⟩
  · norm_num [metropolis_hastings, Py.total_mag_e, Py.calc_positional_e, tabulateM_three,
      Py.calcEntry, Py.delta_e, spin_l_calc, spin_r_calc, spin_l_delta, spin_r_delta,
      spin_u, spin_d, numbaGet, mhRunAux_one, mhStep,
      show Int.toNat 0 = 0 from rfl, show Int.toNat 1 = 1 from rfl,
      show Int.toNat 2 = 2 from rfl, show Int.toNat 3 = 3 from rfl,
      show Int.toNat 4 = 4 from rfl, show Int.toNat 5 = 5 from rfl,
      show Int.toNat 6 = 6 from rfl, show Int.toNat 7 = 7 from rfl,
      show Int.toNat 8 = 8 from rfl]
  · norm_num [metropolis_hastings2, Cy.total_mag_e, Cy.calc_positional_e, Cy.delta_e,
      tabulateM_three, spin_l_calc, spin_r_calc, spin_u, spin_d, cyGet, mhRunAux_one,
      mhStep,
      show Int.toNat 0 = 0 from rfl, show Int.toNat 1 = 1 from rfl,
      show Int.toNat 2 = 2 from rfl, show Int.toNat 3 = 3 from rfl,
      show Int.toNat 4 = 4 from rfl, show Int.toNat 5 = 5 from rfl,
      show Int.toNat 6 = 6 from rfl, show Int.toNat 7 = 7 from rfl,
      show Int.toNat 8 = 8 from rfl]

/-- Claim C10 (witness): the python and cython runs coincide on a concrete
2 x 2 instance. -/
theorem c10_python_cython_agree_small_w :
    metropolis_hastings 2 3 (1/2) (fun _ => 1) [1, 1, 1, -1] (fun _ => (0, 1))
        (fun _ => 1/2) =
      metropolis_hastings2 2 3 (1/2) (fun _ => 1) [1, 1, 1, -1] (fun _ => (0, 1))
        (fun _ => 1/2) :=
  c10_python_cython_agree_small 2 3 (1/2) (fun _ => 1) [1, 1, 1, -1] (fun _ => (0, 1))
    (fun _ => 1/2) (by decide) (by decide) (by intro s; constructor <;> norm_num)

theorem iterFrom_one (delta : ℕ → List ℤ → ℕ → ℕ → Option ℚ) (N : ℕ) (β : ℚ)
    (e : ℚ → ℚ) (sites : ℕ → ℕ × ℕ) (us : ℕ → ℚ) (s : ℕ) (st : List ℤ × ℚ) :
    iterFrom delta N β e sites us s 1 st = mhStep delta N β e (sites s) (us s) st := by
  rw [show (1:ℕ) = 0 + 1 from rfl, iterFrom_succ]
  cases h : mhStep delta N β e (sites s) (us s) st <;> simp [iterFrom_zero, h]

/-- Claim C5 (amended): a completed metropolis_hastings run returns an energy
series of length exactly n_steps whose entry 0 is total_mag_e (with J = 1) of
the initial lattice.  (The further assertion of the claim, that every entry s
equals total_mag_e of the lattice after s steps, is false for s >= 1; see the
counterexample.) -/
theorem c5_series_length_and_initial (N n_steps : ℤ) (β : ℚ) (e : ℚ → ℚ)
    (spins0 : List ℤ) (sites : ℕ → ℕ × ℕ) (us : ℕ → ℚ) (spF : List ℤ) (serF : List ℚ)
    (hrun : metropolis_hastings N n_steps β e spins0 sites us = some (spF, serF)) :
    (serF.length : ℤ) = n_steps ∧ serF.get? 0 = Py.total_mag_e N.toNat spins0 1 := by
  obtain ⟨hN, hn, E0, serT, hE0, hrunAux, hser⟩ :=
    metropolis_hastings_some N n_steps β e spins0 sites us spF serF hrun
  obtain ⟨hlen, -, -⟩ := mhRunAux_spec _ _ β e sites us _ 1 (spins0, E0) spF serT hrunAux
  subst hser
  refine ⟨?_, by rw [hE0]; rfl⟩
  simp only [List.length_cons, hlen]
  omega

/-- Claim C5 (counterexample): the run on the 2 x 2 lattice [[1,1],[-1,1]]
with beta = 0, site draw (0,0) and uniform draw 1/2 accepts a flip with
dE = 0, so E_series[1] stays -8, while total_mag_e of the lattice after that
step is 0: the series entries do not track total_mag_e of the current
lattice. -/
theorem c5_series_entry_ne_total_energy :
    metropolis_hastings 2 2 0 (fun _ => 1) [1, 1, -1, 1] (fun _ => (0, 0)) (fun _ => 1/2) =
      some ([-1, 1, -1, 1], [-8, -8]) ∧
    Py.total_mag_e 2 [-1, 1, -1, 1] 1 = some 0 ∧ ((-8 : ℚ) ≠ 0) := by
  refine ⟨?_, ?_, by norm_num⟩
  · norm_num [metropolis_hastings, Py.total_mag_e, Py.calc_positional_e, tabulateM_two,
      Py.calcEntry, Py.delta_e, spin_l_calc, spin_r_calc, spin_l_delta, spin_r_delta,
      spin_u, spin_d, numbaGet, mhRunAux_one, mhStep,
      show Int.toNat 0 = 0 from rfl, show Int.toNat 1 = 1 from rfl,
      show Int.toNat 2 = 2 from rfl, show Int.toNat 3 = 3 from rfl]
  · norm_num [Py.total_mag_e, Py.calc_positional_e, tabulateM_two, Py.calcEntry,
      spin_l_calc, spin_r_calc, spin_u, spin_d, numbaGet,
      show Int.toNat 0 = 0 from rfl, show Int.toNat 1 = 1 from rfl,
      show Int.toNat 2 = 2 from rfl, show Int.toNat 3 = 3 from rfl]

/-- Claim C5 (witness): the series shape property applied to a completed
concrete run. -/
theorem c5_series_length_and_initial_w :
    (([-16, -8] : List ℚ).length : ℤ) = 2 ∧
    ([-16, -8] : List ℚ).get? 0 = Py.total_mag_e (2:ℤ).toNat [1, 1, 1, 1] 1 :=
  c5_series_length_and_initial 2 2 0 (fun _ => 1) [1, 1, 1, 1] (fun _ => (0, 0))
    (fun _ => 1/2) [-1, 1, 1, 1] [-16, -8]
    (by norm_num [metropolis_hastings, Py.total_mag_e, Py.calc_positional_e, tabulateM_two,
      Py.calcEntry, Py.delta_e, spin_l_calc, spin_r_calc, spin_l_delta, spin_r_delta,
      spin_u, spin_d, numbaGet, mhRunAux_one, mhStep,
      show Int.toNat 0 = 0 from rfl, show Int.toNat 1 = 1 from rfl,
      show Int.toNat 2 = 2 from rfl, show Int.toNat 3 = 3 from rfl])

/-- Claim C6: whenever a metropolis_hastings run completes from an N x N
initial lattice whose cells are all plus or minus one, the returned lattice
is again N x N with all cells plus or minus one, and so is the lattice of
every intermediate state of the run (the state after any number of update
steps): a step either leaves the lattice unchanged or negates exactly one
cell, which preserves the invariant. -/
theorem c6_lattice_cells_invariant (N n_steps : ℤ) (β : ℚ) (e : ℚ → ℚ)
    (spins0 : List ℤ) (sites : ℕ → ℕ × ℕ) (us : ℕ → ℚ) (spF : List ℤ) (serF : List ℚ)
    (hrun : metropolis_hastings N n_steps β e spins0 sites us = some (spF, serF))
    (hlen : spins0.length = N.toNat * N.toNat) (hc : pmSpins spins0)
    (t : ℕ) (st : List ℤ × ℚ)
    (hst : mhStateAt N.toNat β e spins0 sites us t = some st) :
    (spF.length = N.toNat * N.toNat ∧ pmSpins spF) ∧
    st.1.length = N.toNat * N.toNat ∧ pmSpins st.1 := by
  obtain ⟨hN, hn, E0, serT, hE0, hrunAux, hser⟩ :=
    metropolis_hastings_some N n_steps β e spins0 sites us spF serF hrun
  obtain ⟨-, ⟨Ek, hiter⟩, -⟩ := mhRunAux_spec _ _ β e sites us _ 1 (spins0, E0) spF serT hrunAux
  constructor
  · exact iterFrom_preserves _ N.toNat β e sites us _ 1 (spins0, E0) (spF, Ek) hiter hlen hc
  · rw [mhStateAt, hE0, Option.some_bind] at hst
    exact iterFrom_preserves _ N.toNat β e sites us t 1 (spins0, E0) st hst hlen hc

/-- Claim C6 (witness): the invariant theorem applied to a completed concrete
run (projected to the shape of the returned lattice). -/
theorem c6_lattice_cells_invariant_w :
    ([-1, 1, 1, 1] : List ℤ).length = (2:ℤ).toNat * (2:ℤ).toNat :=
  (c6_lattice_cells_invariant 2 2 0 (fun _ => 1) [1, 1, 1, 1] (fun _ => (0, 0))
    (fun _ => 1/2) [-1, 1, 1, 1] [-16, -8]
    (by norm_num [metropolis_hastings, Py.total_mag_e, Py.calc_positional_e, tabulateM_two,
      Py.calcEntry, Py.delta_e, spin_l_calc, spin_r_calc, spin_l_delta, spin_r_delta,
      spin_u, spin_d, numbaGet, mhRunAux_one, mhStep,
      show Int.toNat 0 = 0 from rfl, show Int.toNat 1 = 1 from rfl,
      show Int.toNat 2 = 2 from rfl, show Int.toNat 3 = 3 from rfl])
    (by decide) (by decide) 1 ([-1, 1, 1, 1], -8)
    (by norm_num [mhStateAt, iterFrom_one, Py.total_mag_e, Py.calc_positional_e,
      tabulateM_two, Py.calcEntry, Py.delta_e, spin_l_calc, spin_r_calc, spin_l_delta,
      spin_r_delta, spin_u, spin_d, numbaGet, mhStep,
      show Int.toNat 0 = 0 from rfl, show Int.toNat 1 = 1 from rfl,
      show Int.toNat 2 = 2 from rfl, show Int.toNat 3 = 3 from rfl])).1.1

/-- Claim C3: within any completed metropolis_hastings run, consider a step s
with 1 <= s <= n_steps - 1, let (sp, E) be the run state just before step s
and let d be the value of delta_e(sp, i, j, 1) at the drawn site
(i, j) = sites s.  Then E is the recorded series entry s - 1, and the
proposed flip is accepted exactly when d < 0 or the fresh uniform draw us s
is below e(-beta * d): on acceptance the new state negates exactly the drawn
cell and series entry s is E + d, and on rejection the lattice is unchanged
and series entry s is E. -/
theorem c3_step_acceptance_and_bookkeeping (N n_steps : ℤ) (β : ℚ) (e : ℚ → ℚ)
    (spins0 : List ℤ) (sites : ℕ → ℕ × ℕ) (us : ℕ → ℚ) (spF : List ℤ) (serF : List ℚ)
    (s : ℕ)
    (hrun : metropolis_hastings N n_steps β e spins0 sites us = some (spF, serF))
    (hs1 : 1 ≤ s) (hs2 : (s : ℤ) ≤ n_steps - 1)
    (sp : List ℤ) (E : ℚ)
    (hprev : mhStateAt N.toNat β e spins0 sites us (s - 1) = some (sp, E))
    (d : ℚ) (hd : Py.delta_e N.toNat sp (sites s).1 (sites s).2 1 = some d) :
    serF.get? (s - 1) = some E ∧
    (if d < 0 ∨ us s < e (-β * d) then
      mhStateAt N.toNat β e spins0 sites us s =
          some (sp.set ((sites s).1 * N.toNat + (sites s).2)
            (-(sp.getD ((sites s).1 * N.toNat + (sites s).2) 0)), E + d) ∧
        serF.get? s = some (E + d)
    else
      mhStateAt N.toNat β e spins0 sites us s = some (sp, E) ∧
      serF.get? s = some E) := by
  obtain ⟨hN, hn, E0, serT, hE0, hrunAux, hser⟩ :=
    metropolis_hastings_some N n_steps β e spins0 sites us spF serF hrun
  obtain ⟨hlenT, ⟨Ek, hiterk⟩, hserT⟩ :=
    mhRunAux_spec _ N.toNat β e sites us (n_steps.toNat - 1) 1 (spins0, E0) spF serT hrunAux
  subst hser
  rw [mhStateAt, hE0, Option.some_bind] at hprev
  have hs' : s - 1 + 1 = s := by omega
  have h1s : 1 + (s - 1) = s := by omega
  have hsk : s ≤ n_steps.toNat - 1 := by omega
  have hkbound : s - 1 < n_steps.toNat - 1 := by omega
  have hstep : iterFrom (fun n sp2 i j => Py.delta_e n sp2 i j 1) N.toNat β e sites us 1 s
      (spins0, E0) =
      mhStep (fun n sp2 i j => Py.delta_e n sp2 i j 1) N.toNat β e (sites s) (us s) (sp, E) := by
    conv_lhs => rw [← hs', iterFrom_succ_last]
    rw [hprev, Option.some_bind, h1s]
  obtain ⟨sts, hiters⟩ := iterFrom_some_of_le _ N.toNat β e sites us (n_steps.toNat - 1) 1
    (spins0, E0) (spF, Ek) hiterk s hsk
  have hstep2 : mhStep (fun n sp2 i j => Py.delta_e n sp2 i j 1) N.toNat β e (sites s) (us s)
      (sp, E) = some sts := by
    rw [← hstep]; exact hiters
  have hgetS : (E0 :: serT).get? s = some sts.2 := by
    conv_lhs => rw [← hs']
    rw [List.get?_cons_succ, hserT (s - 1) hkbound, hs', hstep, hstep2, Option.map_some']
  have hgetPrev : (E0 :: serT).get? (s - 1) = some E := by
    cases hs0 : s - 1 with
    | zero =>
      rw [hs0, iterFrom_zero] at hprev
      injection hprev with h
      injection h with ha hb
      rw [List.get?_cons_zero, hb]
    | succ u =>
      rw [List.get?_cons_succ, hserT u (by omega),
        show u + 1 = s - 1 from by omega, hprev, Option.map_some']
  have hstep3 := hstep2
  rw [mhStep] at hstep3
  by_cases hN0 : N.toNat = 0
  · rw [if_pos hN0] at hstep3; cases hstep3
  rw [if_neg hN0] at hstep3
  dsimp only at hstep3
  rw [hd, Option.some_bind] at hstep3
  refine ⟨hgetPrev, ?_⟩
  by_cases hcond : d < 0 ∨ us s < e (-β * d)
  · rw [if_pos hcond] at hstep3 ⊢
    cases hv : sp.get? ((sites s).1 * N.toNat + (sites s).2) with
    | none => rw [hv] at hstep3; cases hstep3
    | some v =>
      rw [hv, Option.some_bind] at hstep3
      injection hstep3 with h3
      constructor
      · rw [mhStateAt, hE0, Option.some_bind, hiters, ← h3]
        have hgd : sp.getD ((sites s).1 * N.toNat + (sites s).2) 0 = v := by
          rw [List.getD_eq_get?, hv]; rfl
        rw [hgd]
      · rw [hgetS, ← h3]
  · rw [if_neg hcond] at hstep3 ⊢
    injection hstep3 with h3
    constructor
    · rw [mhStateAt, hE0, Option.some_bind, hiters, ← h3]
    · rw [hgetS, ← h3]

/-- Claim C3 (witness): the step characterisation applied to step 1 of a
concrete run (all-up 2 x 2 lattice, beta = 0, site (0,0), uniform draw 1/2,
delta energy 8, accepted since exp(0) = 1 > 1/2). -/
theorem c3_step_acceptance_and_bookkeeping_w :
    ([-16, -8] : List ℚ).get? 0 = some (-16) ∧
    (if (8 : ℚ) < 0 ∨ (1/2 : ℚ) < (1 : ℚ) then
      mhStateAt 2 0 (fun _ => 1) [1, 1, 1, 1] (fun _ => (0, 0)) (fun _ => 1/2) 1 =
          some (([1, 1, 1, 1] : List ℤ).set 0 (-(([1, 1, 1, 1] : List ℤ).getD 0 0)),
            -16 + 8) ∧
        ([-16, -8] : List ℚ).get? 1 = some (-16 + 8)
    else
      mhStateAt 2 0 (fun _ => 1) [1, 1, 1, 1] (fun _ => (0, 0)) (fun _ => 1/2) 1 =
          some ([1, 1, 1, 1], -16) ∧
        ([-16, -8] : List ℚ).get? 1 = some (-16)) :=
  c3_step_acceptance_and_bookkeeping 2 2 0 (fun _ => 1) [1, 1, 1, 1] (fun _ => (0, 0))
    (fun _ => 1/2) [-1, 1, 1, 1] [-16, -8] 1
    (by norm_num [metropolis_hastings, Py.total_mag_e, Py.calc_positional_e, tabulateM_two,
      Py.calcEntry, Py.delta_e, spin_l_calc, spin_r_calc, spin_l_delta, spin_r_delta,
      spin_u, spin_d, numbaGet, mhRunAux_one, mhStep,
      show Int.toNat 0 = 0 from rfl, show Int.toNat 1 = 1 from rfl,
      show Int.toNat 2 = 2 from rfl, show Int.toNat 3 = 3 from rfl])
    (by norm_num) (by norm_num) [1, 1, 1, 1] (-16)
    (by norm_num [mhStateAt, iterFrom_zero, Py.total_mag_e, Py.calc_positional_e,
      tabulateM_two, Py.calcEntry, spin_l_calc, spin_r_calc, spin_u, spin_d, numbaGet,
      show Int.toNat 0 = 0 from rfl, show Int.toNat 1 = 1 from rfl,
      show Int.toNat 2 = 2 from rfl, show Int.toNat 3 = 3 from rfl])
    8
    (by norm_num [Py.delta_e, spin_l_delta, spin_r_delta, spin_u, spin_d, numbaGet,
      show Int.toNat 0 = 0 from rfl, show Int.toNat 1 = 1 from rfl,
      show Int.toNat 2 = 2 from rfl, show Int.toNat 3 = 3 from rfl])
